import Mathlib

/-!
Shallow embedding of the `simpleBlockAllocator` C++ repository
(`src/blockAllocator.cpp`, `src/blockAllocator.h`,
`src/blockAllocatorExceptions.h`).

Addresses and `size_t` values are modelled as `Nat`; the platform is the
64-bit one the repository's tests assume (`sizeof(Block*) = 8`,
`std::numeric_limits<size_t>::max() = 2^64 - 1`).  The backing buffer is
modelled as a function `Nat → Nat` giving, for each header address, the
pointer-sized word stored there (`Block::next`).  `NULL` is the address `0`,
and the reserved in-use flag `(Block*)1` is the value `1`.  `malloc` is
modelled by a parameter `mallocResult` (0 = allocation failure).  A C++
method that throws is modelled as returning the error paired with the
unchanged state: in the source every throw happens before any mutation.
-/

namespace BlockAlloc

/-- The number of values of the 64-bit address type (2^64). -/
def MOD : Nat := 2 ^ 64

/-- `std::numeric_limits<size_t>::max()` on the 64-bit platform. -/
def MAXV : Nat := 2 ^ 64 - 1

/-- `sizeof(Block*)`: the block header size, a fixed 8-byte word. -/
def HEADER : Nat := 8

/-- The reserved header value `(Block*)1` marking a block as in use. -/
def blockInUseFlag : Nat := 1

/-- 64-bit wrapping subtraction, modelling pointer arithmetic `a - b`
on `char*` values (requires `b ≤ MOD`; we only use `b = HEADER`). -/
def wrapSub (a b : Nat) : Nat := (a + (MOD - b)) % MOD

/-- Heap write: update the stored header word at address `a` to `v`. -/
def wr (m : Nat → Nat) (a v : Nat) : Nat → Nat := fun x => if x = a then v else m x

/-- `BlockAllocator::MemoryPoolType` (the spec calls `Internal` "Owned"). -/
inductive MemoryPoolType
  | Internal
  | External
deriving DecidableEq

/-- The exception taxonomy of `blockAllocatorExceptions.h`. -/
inductive AllocError
  | InvalidConstructorParameters
  | OutOfSystemMemory
  | OutOfAllocatableMemory
  | InvalidBlockAddress
deriving DecidableEq

/-- The state of one `BlockAllocator` instance: its scalar fields plus the
contents of the backing buffer's header words (`mem`). -/
@[ext]
structure BlockAllocator where
  blockSize : Nat
  headerSize : Nat
  maxBlocks : Nat
  blockWithHeaderSize : Nat
  startHeader : Nat
  endHeader : Nat
  headHeader : Nat
  poolType : MemoryPoolType
  mem : Nat → Nat

/-- `BlockAllocator::getHeaderSize()` (static): `sizeof(Block*)`. -/
def getHeaderSize : Nat := HEADER

/-- `BlockAllocator::getBlockSize()`. -/
def getBlockSize (p : BlockAllocator) : Nat := p.blockSize

/-- `BlockAllocator::getPoolType()`. -/
def getPoolType (p : BlockAllocator) : MemoryPoolType := p.poolType

/-- `BlockAllocator::isSizeCorrect`: overflow-free check that
`(blockByteSize + headerSize) * numOfBlocks` fits in `size_t`,
done with a division instead of the multiplication. -/
def isSizeCorrect (blockByteSize numOfBlocks : Nat) : Bool :=
  let maxBlockWithHeaderSize := MAXV / numOfBlocks
  if maxBlockWithHeaderSize < getHeaderSize then false
  else decide (blockByteSize ≤ maxBlockWithHeaderSize - HEADER)

/-- `BlockAllocator::buildBlocksList`: the loop
`for (i = startHeader; i < endH; i += stride) *i = i + stride;` followed by
`*endH = NULL`.  `fuel` bounds the number of iterations; every caller
passes `fuel = maxBlocks`, which (with `endH = start + stride*(maxBlocks-1)`
and `stride > 0`) strictly exceeds the `maxBlocks - 1` iterations the loop
performs, so the model is exact. -/
def buildBlocksList (fuel : Nat) (mem : Nat → Nat) (i endH stride : Nat) : Nat → Nat :=
  match fuel with
  | 0 => wr mem endH 0
  | f + 1 =>
    if i < endH then buildBlocksList f (wr mem i (i + stride)) (i + stride) endH stride
    else wr mem endH 0

/-- The tail of `BlockAllocator::BlockAllocator` after parameter validation
and buffer selection: record the layout fields and build the free list. -/
def finishConstruct (blockSize maxBlocks bwh : Nat) (pt : MemoryPoolType)
    (start : Nat) (mem0 : Nat → Nat) : BlockAllocator :=
  { blockSize := blockSize
    headerSize := HEADER
    maxBlocks := maxBlocks
    blockWithHeaderSize := bwh
    startHeader := start
    endHeader := start + bwh * (maxBlocks - 1)
    headHeader := start
    poolType := pt
    mem := buildBlocksList maxBlocks mem0 start (start + bwh * (maxBlocks - 1)) bwh }

/-- `BlockAllocator::BlockAllocator(size, blocks, memoryPool)`.
`memoryPool = 0` models the `NULL` default (self-acquire); `mallocResult`
is the address `malloc` returns in that case (0 = failure); `mem0` is the
arbitrary prior content of the buffer's words. -/
def mkBlockAllocator (size blocks memoryPool mallocResult : Nat) (mem0 : Nat → Nat) :
    Except AllocError BlockAllocator :=
  if size = 0 ∨ blocks = 0 then .error .InvalidConstructorParameters
  else if isSizeCorrect size blocks = false then .error .InvalidConstructorParameters
  else if memoryPool = 0 then
    if mallocResult = 0 then .error .OutOfSystemMemory
    else .ok (finishConstruct size blocks (size + HEADER) .Internal mallocResult mem0)
  else .ok (finishConstruct size blocks (size + HEADER) .External memoryPool mem0)

/-- The header address `(char*)block - headerSize` derived from a payload
address, with 64-bit pointer wraparound. -/
def headerOf (p : BlockAllocator) (block : Nat) : Nat := wrapSub block p.headerSize

/-- `BlockAllocator::isBlockAddress`: reject `NULL` and any address whose
derived header (`block - headerSize`) is outside `[startHeader, endHeader]`;
otherwise accept exactly when the header sits on the stride grid. -/
def isBlockAddress (p : BlockAllocator) (block : Nat) : Bool :=
  if block = 0 ∨ p.endHeader < headerOf p block ∨ headerOf p block < p.startHeader then false
  else decide ((headerOf p block - p.startHeader) % p.blockWithHeaderSize = 0)

/-- `BlockAllocator::isBlockInUse`. -/
def isBlockInUse (p : BlockAllocator) (block : Nat) : Bool :=
  if isBlockAddress p block = false then false
  else if p.mem (headerOf p block) = blockInUseFlag then true
  else false

/-- `BlockAllocator::allocate`: pop the free-list head, stamp it with the
in-use flag, return its payload address; throw `OutOfAllocatableMemory`
(state unchanged) when the list is empty. -/
def allocate (p : BlockAllocator) : Except AllocError Nat × BlockAllocator :=
  if p.headHeader = 0 then (.error .OutOfAllocatableMemory, p)
  else
    (.ok (p.headHeader + getHeaderSize),
      { p with
        headHeader := p.mem p.headHeader
        mem := wr p.mem p.headHeader blockInUseFlag })

/-- `BlockAllocator::deallocate`: validate, then push the block back on the
free-list head; throw `InvalidBlockAddress` (state unchanged) otherwise. -/
def deallocate (p : BlockAllocator) (block : Nat) : Except AllocError Unit × BlockAllocator :=
  if isBlockInUse p block = false then (.error .InvalidBlockAddress, p)
  else
    (.ok (),
      { p with
        mem := wr p.mem (headerOf p block) p.headHeader
        headHeader := headerOf p block })

/-- `BlockAllocator::~BlockAllocator`: the release action of teardown —
`some a` means `std::free(a)` is called, `none` means no release.  Teardown
never writes to the buffer, so the buffer's bytes are untouched either way. -/
def destructorFrees (p : BlockAllocator) : Option Nat :=
  if p.poolType = MemoryPoolType.Internal ∧ p.startHeader ≠ 0 then some p.startHeader
  else none

/-- `n` successive `allocate()` calls; stops at the first failure. -/
def allocN (p : BlockAllocator) (n : Nat) : Except AllocError (List Nat) × BlockAllocator :=
  match n with
  | 0 => (.ok [], p)
  | m + 1 =>
    match allocate p with
    | (.ok a, q) =>
      match allocN q m with
      | (.ok l, r) => (.ok (a :: l), r)
      | (.error e, r) => (.error e, r)
    | (.error e, q) => (.error e, q)

instance decExistsLtAnd (n : Nat) (q : Nat → Prop) [DecidablePred q] :
    Decidable (∃ k, k < n ∧ q k) :=
  decidable_of_iff (∃ k ∈ Finset.range n, q k) (by simp [Finset.mem_range])

/-- Header addresses at distinct indices are distinct (positive stride). -/
theorem addr_inj {i stride k j : Nat} (hs : 0 < stride)
    (h : i + k * stride = i + j * stride) : k = j :=
  Nat.eq_of_mul_eq_mul_right hs (Nat.add_left_cancel h)

/-- Pointwise description of the memory produced by the `buildBlocksList`
loop: every visited header gets the address of the following header, the
last header gets `NULL`, and all other words keep their prior content. -/
theorem buildBlocksList_eq (stride : Nat) (hs : 0 < stride) :
    ∀ n fuel, n ≤ fuel → ∀ (mem : Nat → Nat) (i a : Nat),
      buildBlocksList fuel mem i (i + n * stride) stride a =
        if ∃ k, k < n ∧ a = i + k * stride then a + stride
        else if a = i + n * stride then 0 else mem a := by
  intro n
  induction n with
  | zero =>
    intro fuel _ mem i a
    have h0 : ¬ ∃ k, k < 0 ∧ a = i + k * stride := by
      rintro ⟨k, hk, -⟩
      exact absurd hk (Nat.not_lt_zero k)
    cases fuel with
    | zero => simp [buildBlocksList, wr, h0]
    | succ f => simp [buildBlocksList, wr, h0]
  | succ n ih =>
    intro fuel hfuel mem i a
    obtain ⟨f, rfl⟩ : ∃ f, fuel = f + 1 := ⟨fuel - 1, by omega⟩
    have hn : n ≤ f := by omega
    have hpos : 0 < (n + 1) * stride := Nat.mul_pos (Nat.succ_pos n) hs
    have hcond : i < i + (n + 1) * stride := by omega
    have hshift : i + (n + 1) * stride = i + stride + n * stride := by ring
    rw [show buildBlocksList (f + 1) mem i (i + (n + 1) * stride) stride a =
        buildBlocksList f (wr mem i (i + stride)) (i + stride)
          (i + (n + 1) * stride) stride a from by
      simp only [buildBlocksList, if_pos hcond]]
    rw [hshift, ih f hn (wr mem i (i + stride)) (i + stride) a]
    by_cases hex : ∃ k, k < n + 1 ∧ a = i + k * stride
    · obtain ⟨k, hk, rfl⟩ := hex
      rcases k with _ | k'
      · have hne1 : ¬ ∃ j, j < n ∧ i + 0 * stride = i + stride + j * stride := by
          rintro ⟨j, -, he⟩
          have : 0 * stride = stride + j * stride := by omega
          have : stride = 0 := by
            have h1 : stride + j * stride = 0 := by omega
            exact Nat.eq_zero_of_add_eq_zero_right h1
          omega
        have hne2 : i + 0 * stride ≠ i + stride + n * stride := by
          intro he
          have : stride + n * stride = 0 := by omega
          have : stride = 0 := Nat.eq_zero_of_add_eq_zero_right this
          omega
        rw [if_neg hne1, if_neg hne2,
          if_pos ⟨0, hk, rfl⟩]
        simp [wr]
      · have hsh2 : i + (k' + 1) * stride = i + stride + k' * stride := by ring
        have hk' : k' < n := by omega
        rw [if_pos ⟨k', hk', hsh2⟩, if_pos ⟨k' + 1, hk, rfl⟩]
    · have hne1 : ¬ ∃ j, j < n ∧ a = i + stride + j * stride := by
        rintro ⟨j, hj, he⟩
        exact hex ⟨j + 1, by omega, by rw [he]; ring⟩
      rw [if_neg hne1, if_neg hex]
      by_cases hend : a = i + stride + n * stride
      · rw [if_pos hend, if_pos hend]
      · rw [if_neg hend, if_neg hend]
        have hne0 : a ≠ i := by
          intro he
          exact hex ⟨0, Nat.succ_pos n, by rw [he]; ring⟩
        simp [wr, hne0]

/-- The freshly built free list: header `k` stores the address of header
`k + 1`, and the last header stores `NULL`. -/
theorem build_mem_header (mem0 : Nat → Nat) (start bwh mb k : Nat)
    (hb : 0 < bwh) (hk : k < mb) :
    buildBlocksList mb mem0 start (start + bwh * (mb - 1)) bwh (start + k * bwh) =
      if k + 1 < mb then start + (k + 1) * bwh else 0 := by
  have hrw : start + bwh * (mb - 1) = start + (mb - 1) * bwh := by ring
  rw [hrw, buildBlocksList_eq bwh hb (mb - 1) mb (by omega) mem0 start (start + k * bwh)]
  by_cases h : k + 1 < mb
  · rw [if_pos ⟨k, by omega, rfl⟩, if_pos h]
    ring
  · have hk1 : k = mb - 1 := by omega
    rw [if_neg, if_pos (by rw [hk1]), if_neg h]
    rintro ⟨j, hj, he⟩
    have := addr_inj hb he
    omega

/-- The pool state reached from a freshly built pool after `i` successful
allocations (for `i ≤ maxBlocks`): the first `i` headers carry the in-use
flag and the free list starts at header `i` (or is empty for `i = maxBlocks`). -/
def poolAfter (bs mb : Nat) (pt : MemoryPoolType) (start : Nat) (mem0 : Nat → Nat)
    (i : Nat) : BlockAllocator :=
  { blockSize := bs
    headerSize := HEADER
    maxBlocks := mb
    blockWithHeaderSize := bs + HEADER
    startHeader := start
    endHeader := start + (bs + HEADER) * (mb - 1)
    headHeader := if i < mb then start + i * (bs + HEADER) else 0
    poolType := pt
    mem := fun a =>
      if ∃ k, k < i ∧ a = start + k * (bs + HEADER) then blockInUseFlag
      else buildBlocksList mb mem0 start (start + (bs + HEADER) * (mb - 1)) (bs + HEADER) a }

theorem finishConstruct_eq_poolAfter (bs mb : Nat) (pt : MemoryPoolType) (start : Nat)
    (mem0 : Nat → Nat) (hmb : 0 < mb) :
    finishConstruct bs mb (bs + HEADER) pt start mem0 = poolAfter bs mb pt start mem0 0 := by
  unfold finishConstruct poolAfter
  refine BlockAllocator.ext rfl rfl rfl rfl rfl rfl ?_ rfl ?_
  · rw [if_pos hmb]
    ring
  · funext a
    have h0 : ¬ ∃ k, k < 0 ∧ a = start + k * (bs + HEADER) := by
      rintro ⟨k, hk, -⟩
      omega
    symm
    exact @if_neg _ _ h0 _ blockInUseFlag _

theorem poolAfter_mem_head (bs mb : Nat) (pt : MemoryPoolType) (start : Nat)
    (mem0 : Nat → Nat) (i : Nat) (hi : i < mb) :
    (poolAfter bs mb pt start mem0 i).mem (start + i * (bs + HEADER)) =
      if i + 1 < mb then start + (i + 1) * (bs + HEADER) else 0 := by
  have hb : 0 < bs + HEADER := by simp [HEADER]
  simp only [poolAfter]
  rw [if_neg, build_mem_header mem0 start (bs + HEADER) mb i hb hi]
  rintro ⟨k, hk, he⟩
  have := addr_inj hb he
  omega

theorem allocate_poolAfter (bs mb : Nat) (pt : MemoryPoolType) (start : Nat)
    (mem0 : Nat → Nat) (i : Nat) (hstart : 0 < start) (hi : i < mb) :
    allocate (poolAfter bs mb pt start mem0 i) =
      (.ok (start + i * (bs + HEADER) + HEADER), poolAfter bs mb pt start mem0 (i + 1)) := by
  have hb : 0 < bs + HEADER := by simp [HEADER]
  have hhd : (poolAfter bs mb pt start mem0 i).headHeader = start + i * (bs + HEADER) := by
    simp only [poolAfter]
    rw [if_pos hi]
  have hne : ¬ (poolAfter bs mb pt start mem0 i).headHeader = 0 := by
    rw [hhd]
    omega
  unfold allocate
  rw [if_neg hne, hhd, Prod.mk.injEq]
  refine ⟨rfl, ?_⟩
  refine BlockAllocator.ext rfl rfl rfl rfl rfl rfl ?_ rfl ?_
  · rw [poolAfter_mem_head bs mb pt start mem0 i hi]
    simp only [poolAfter]
  · funext a
    simp only [wr, poolAfter]
    by_cases ha : a = start + i * (bs + HEADER)
    · rw [if_pos ha, if_pos ⟨i, by omega, ha⟩]
    · rw [if_neg ha]
      have hiff : (∃ k, k < i ∧ a = start + k * (bs + HEADER)) ↔
          (∃ k, k < i + 1 ∧ a = start + k * (bs + HEADER)) := by
        constructor
        · rintro ⟨k, hk, rfl⟩
          exact ⟨k, by omega, rfl⟩
        · rintro ⟨k, hk, rfl⟩
          refine ⟨k, ?_, rfl⟩
          rcases Nat.lt_succ_iff_lt_or_eq.mp hk with h | rfl
          · exact h
          · exact absurd rfl ha
      exact if_congr hiff rfl rfl

theorem allocate_poolAfter_end (bs mb : Nat) (pt : MemoryPoolType) (start : Nat)
    (mem0 : Nat → Nat) :
    allocate (poolAfter bs mb pt start mem0 mb) =
      (.error .OutOfAllocatableMemory, poolAfter bs mb pt start mem0 mb) := by
  have hhd : (poolAfter bs mb pt start mem0 mb).headHeader = 0 := by
    simp [poolAfter]
  unfold allocate
  rw [if_pos hhd]

theorem allocN_poolAfter (bs mb : Nat) (pt : MemoryPoolType) (start : Nat)
    (mem0 : Nat → Nat) (hstart : 0 < start) :
    ∀ j i, i + j ≤ mb →
      allocN (poolAfter bs mb pt start mem0 i) j =
        (.ok ((List.range j).map fun k => start + (i + k) * (bs + HEADER) + HEADER),
          poolAfter bs mb pt start mem0 (i + j)) := by
  intro j
  induction j with
  | zero =>
    intro i hij
    simp [allocN]
  | succ j ih =>
    intro i hij
    have hi : i < mb := by omega
    simp only [allocN, allocate_poolAfter bs mb pt start mem0 i hstart hi,
      ih (i + 1) (by omega)]
    have hlist : (start + i * (bs + HEADER) + HEADER) ::
        (List.range j).map (fun k => start + (i + 1 + k) * (bs + HEADER) + HEADER) =
        (List.range (j + 1)).map (fun k => start + (i + k) * (bs + HEADER) + HEADER) := by
      rw [List.range_succ_eq_map, List.map_cons, List.map_map]
      simp only [Function.comp_def, Nat.add_zero, Nat.succ_eq_add_one]
      refine congrArg (List.cons _) ?_
      refine List.map_congr_left ?_
      intro k hk
      have h5 : i + 1 + k = i + (k + 1) := by omega
      rw [h5]
    have hidx : i + 1 + j = i + (j + 1) := by omega
    rw [hlist, hidx]

/-- Decomposition of a successful construction into its validated
parameters and resulting state. -/
theorem mk_ok_elim {bs mb mp mall : Nat} {mem0 : Nat → Nat} {p : BlockAllocator}
    (h : mkBlockAllocator bs mb mp mall mem0 = .ok p) :
    0 < bs ∧ 0 < mb ∧ isSizeCorrect bs mb = true ∧
      0 < (if mp = 0 then mall else mp) ∧
      p = finishConstruct bs mb (bs + HEADER)
            (if mp = 0 then MemoryPoolType.Internal else MemoryPoolType.External)
            (if mp = 0 then mall else mp) mem0 := by
  unfold mkBlockAllocator at h
  split_ifs at h with h1 h2 h3 h4
  · simp only [Except.ok.injEq] at h
    simp only [Bool.not_eq_false] at h2
    refine ⟨by omega, by omega, h2, ?_, ?_⟩
    · rw [if_pos h3]
      omega
    · rw [← h, if_pos h3, if_pos h3]
  · simp only [Except.ok.injEq] at h
    simp only [Bool.not_eq_false] at h2
    refine ⟨by omega, by omega, h2, ?_, ?_⟩
    · rw [if_neg h3]
      omega
    · rw [← h, if_neg h3, if_neg h3]

/-- Arbitrary prior buffer contents used by the concrete witness pools. -/
def mem00 : Nat → Nat := fun _ => 0

/-- Concrete pool: blockSize 2, maxBlocks 2, external buffer at address 100. -/
def pool0 : BlockAllocator := finishConstruct 2 2 10 MemoryPoolType.External 100 mem00

/-- Concrete pool: blockSize 64, maxBlocks 4, external buffer at address 1000. -/
def pool64 : BlockAllocator := finishConstruct 64 4 72 MemoryPoolType.External 1000 mem00

/-- C1: for every valid pair (blockSize ≥ 1, maxBlocks ≥ 1) accepted by
construction, a freshly constructed pool serves exactly `maxBlocks`
successive `allocate()` calls successfully, and the `(maxBlocks+1)`-th
`allocate()` call fails with `OutOfAllocatableMemory`. -/
theorem allocate_capacity_exact (bs mb mp mall : Nat) (mem0 : Nat → Nat)
    (p : BlockAllocator) (h : mkBlockAllocator bs mb mp mall mem0 = .ok p) :
    ∃ l q, allocN p mb = (.ok l, q) ∧ l.length = mb ∧
      (allocate q).1 = .error .OutOfAllocatableMemory := by
  obtain ⟨hbs, hmb, hsz, hbase, hp⟩ := mk_ok_elim h
  rw [hp, finishConstruct_eq_poolAfter _ _ _ _ _ hmb]
  have hN := allocN_poolAfter bs mb
      (if mp = 0 then MemoryPoolType.Internal else MemoryPoolType.External)
      (if mp = 0 then mall else mp) mem0 hbase mb 0 (by omega)
  rw [Nat.zero_add] at hN
  refine ⟨_, _, hN, ?_, ?_⟩
  · simp
  · rw [allocate_poolAfter_end]

theorem allocate_capacity_exact_witness :
    ∃ l q, allocN pool0 2 = (.ok l, q) ∧ l.length = 2 ∧
      (allocate q).1 = .error .OutOfAllocatableMemory :=
  allocate_capacity_exact 2 2 100 0 mem00 pool0 rfl

/-- C6: on a freshly constructed pool, the addresses returned by successive
`allocate()` calls with no interleaved `deallocate` are strictly increasing
and consecutive returns differ by exactly `blockSize + headerSize` bytes,
because construction links all blocks start-to-end in ascending address
order. -/
theorem allocate_addresses_increasing (bs mb mp mall : Nat) (mem0 : Nat → Nat)
    (p : BlockAllocator) (h : mkBlockAllocator bs mb mp mall mem0 = .ok p) :
    ∃ l q, allocN p mb = (.ok l, q) ∧
      (∀ i (h1 : i + 1 < l.length) (h2 : i < l.length),
        l.get ⟨i + 1, h1⟩ = l.get ⟨i, h2⟩ + (bs + HEADER)) ∧
      l.Pairwise (· < ·) := by
  obtain ⟨hbs, hmb, hsz, hbase, hp⟩ := mk_ok_elim h
  rw [hp, finishConstruct_eq_poolAfter _ _ _ _ _ hmb]
  have hN := allocN_poolAfter bs mb
      (if mp = 0 then MemoryPoolType.Internal else MemoryPoolType.External)
      (if mp = 0 then mall else mp) mem0 hbase mb 0 (by omega)
  rw [Nat.zero_add] at hN
  have hb : 0 < bs + HEADER := by simp [HEADER]
  refine ⟨_, _, hN, ?_, ?_⟩
  · intro i h1 h2
    simp only [List.get_eq_getElem, List.getElem_map, List.getElem_range]
    ring
  · refine List.Pairwise.map _ ?_ (List.pairwise_lt_range mb)
    intro a b hab
    have hmul : (0 + a) * (bs + HEADER) < (0 + b) * (bs + HEADER) :=
      mul_lt_mul_of_pos_right (by omega) hb
    exact Nat.add_lt_add_right (Nat.add_lt_add_left hmul _) HEADER

theorem allocate_addresses_increasing_witness :
    ∃ l q, allocN pool64 4 = (.ok l, q) ∧
      (∀ i (h1 : i + 1 < l.length) (h2 : i < l.length),
        l.get ⟨i + 1, h1⟩ = l.get ⟨i, h2⟩ + (64 + HEADER)) ∧
      l.Pairwise (· < ·) :=
  allocate_addresses_increasing 64 4 1000 0 mem00 pool64 rfl

/-- C4: construction fails with `InvalidParameters` exactly when
`blockSize = 0`, or `maxBlocks = 0`, or the division-based size test
rejects; and for `maxBlocks > 0` that test (which never performs the
multiplication, and rejects also when `MAXV / maxBlocks < headerSize`)
rejects exactly when `(blockSize + headerSize) * maxBlocks` would
overflow the address-width arithmetic. -/
theorem construction_invalid_parameters_iff (bs mb mp mall : Nat) (mem0 : Nat → Nat) :
    (mkBlockAllocator bs mb mp mall mem0 = .error .InvalidConstructorParameters ↔
      bs = 0 ∨ mb = 0 ∨ isSizeCorrect bs mb = false) ∧
    (0 < mb → (isSizeCorrect bs mb = false ↔ MAXV < (bs + HEADER) * mb)) := by
  constructor
  · unfold mkBlockAllocator
    split_ifs with h1 h2 h3 h4
    · exact iff_of_true rfl (by tauto)
    · exact iff_of_true rfl (by tauto)
    · refine iff_of_false (by simp) ?_
      push_neg at h1
      rintro (hA | hB | hC)
      · exact h1.1 hA
      · exact h1.2 hB
      · exact h2 hC
    · refine iff_of_false (by simp) ?_
      push_neg at h1
      rintro (hA | hB | hC)
      · exact h1.1 hA
      · exact h1.2 hB
      · exact h2 hC
    · refine iff_of_false (by simp) ?_
      push_neg at h1
      rintro (hA | hB | hC)
      · exact h1.1 hA
      · exact h1.2 hB
      · exact h2 hC
  · intro hmb
    have hung : isSizeCorrect bs mb =
        (if MAXV / mb < HEADER then false else decide (bs ≤ MAXV / mb - HEADER)) := rfl
    rw [hung]
    split_ifs with h
    · refine iff_of_true rfl ?_
      have h8 : MAXV < HEADER * mb := (Nat.div_lt_iff_lt_mul hmb).mp h
      calc MAXV < HEADER * mb := h8
        _ ≤ (bs + HEADER) * mb := mul_le_mul_right' (by omega) mb
    · rw [decide_eq_false_iff_not]
      constructor
      · intro hgt
        have h9 : MAXV / mb < bs + HEADER := by omega
        exact (Nat.div_lt_iff_lt_mul hmb).mp h9
      · intro hlt hle
        have h9 : bs + HEADER ≤ MAXV / mb := by omega
        have h10 := (Nat.le_div_iff_mul_le hmb).mp h9
        omega

theorem construction_invalid_parameters_iff_witness :
    (mkBlockAllocator 1 0 0 0 mem00 = .error .InvalidConstructorParameters ↔
      (1 : Nat) = 0 ∨ (0 : Nat) = 0 ∨ isSizeCorrect 1 0 = false) ∧
    (isSizeCorrect 5 2 = false ↔ MAXV < (5 + HEADER) * 2) :=
  ⟨(construction_invalid_parameters_iff 1 0 0 0 mem00).1,
    (construction_invalid_parameters_iff 5 2 0 0 mem00).2 (by decide)⟩

/-- C9: every accepted `blockByteSize ≥ 1` — including values strictly
smaller than the header size — is stored exactly as passed, with no
minimum-size clamping, `getBlockSize` returns exactly that value, and
neither `allocate` nor `deallocate` ever changes it. -/
theorem blockSize_unclamped (bs mb mp mall : Nat) (mem0 : Nat → Nat)
    (p : BlockAllocator) (h : mkBlockAllocator bs mb mp mall mem0 = .ok p) :
    getBlockSize p = bs ∧
      (∀ q : BlockAllocator, getBlockSize (allocate q).2 = getBlockSize q) ∧
      (∀ (q : BlockAllocator) (x : Nat), getBlockSize (deallocate q x).2 = getBlockSize q) := by
  obtain ⟨-, -, -, -, hp⟩ := mk_ok_elim h
  refine ⟨by rw [hp]; rfl, ?_, ?_⟩
  · intro q
    unfold allocate
    split_ifs <;> rfl
  · intro q x
    unfold deallocate
    split_ifs <;> rfl

theorem blockSize_unclamped_witness :
    getBlockSize (finishConstruct 1 1 9 MemoryPoolType.External 50 mem00) = 1 ∧
      (∀ q : BlockAllocator, getBlockSize (allocate q).2 = getBlockSize q) ∧
      (∀ (q : BlockAllocator) (x : Nat), getBlockSize (deallocate q x).2 = getBlockSize q) :=
  blockSize_unclamped 1 1 50 0 mem00 (finishConstruct 1 1 9 MemoryPoolType.External 50 mem00) rfl

/-- C8: constructing with a non-null external buffer makes the pool
External and teardown performs no release of that buffer (teardown never
writes to the buffer at all); constructing without one makes the pool
Internal (the spec's "Owned") and teardown releases exactly the
self-acquired buffer. -/
theorem pool_type_and_teardown (bs mb mp mall : Nat) (mem0 : Nat → Nat)
    (p : BlockAllocator) (h : mkBlockAllocator bs mb mp mall mem0 = .ok p) :
    (mp ≠ 0 → getPoolType p = .External ∧ destructorFrees p = none) ∧
    (mp = 0 → getPoolType p = .Internal ∧ destructorFrees p = some mall) := by
  obtain ⟨-, -, -, hbase, hp⟩ := mk_ok_elim h
  constructor
  · intro hmp
    rw [hp, if_neg hmp, if_neg hmp]
    refine ⟨rfl, ?_⟩
    unfold destructorFrees finishConstruct
    rw [if_neg]
    rintro ⟨hct, -⟩
    exact absurd hct (by simp)
  · intro hmp
    rw [if_pos hmp] at hbase
    rw [hp, if_pos hmp, if_pos hmp]
    refine ⟨rfl, ?_⟩
    unfold destructorFrees finishConstruct
    rw [if_pos ⟨rfl, Nat.pos_iff_ne_zero.mp hbase⟩]

theorem pool_type_and_teardown_witness :
    getPoolType pool0 = MemoryPoolType.External ∧ destructorFrees pool0 = none :=
  (pool_type_and_teardown 2 2 100 0 mem00 pool0 rfl).1 (by decide)

/-- The structural layout facts every really-constructed pool satisfies:
8-byte header, positive block size and count, consistent stride and range
fields, a base address above the in-use flag value (the source's
documented assumption that address `0x1` is never a usable block), and a
buffer that fits below the top of the 64-bit address space. -/
def WFlayout (p : BlockAllocator) : Prop :=
  p.headerSize = HEADER ∧
  0 < p.blockSize ∧
  0 < p.maxBlocks ∧
  p.blockWithHeaderSize = p.blockSize + HEADER ∧
  p.endHeader = p.startHeader + p.blockWithHeaderSize * (p.maxBlocks - 1) ∧
  1 < p.startHeader ∧
  p.endHeader + p.blockWithHeaderSize ≤ MOD

instance decWFlayout (p : BlockAllocator) : Decidable (WFlayout p) := by
  unfold WFlayout
  infer_instance

/-- `a` is the address of one of the pool's block headers. -/
def isHeaderAddr (p : BlockAllocator) (a : Nat) : Prop :=
  ∃ k, k < p.maxBlocks ∧ a = p.startHeader + k * p.blockWithHeaderSize

theorem wrapSub_eq (x : Nat) (hge : HEADER ≤ x) (hlt : x < MOD) :
    wrapSub x HEADER = x - HEADER := by
  have hH : HEADER = 8 := rfl
  have hM : MOD = 18446744073709551616 := rfl
  unfold wrapSub
  rw [hM, hH]
  omega

theorem wrapSub_big (x : Nat) (hx : x < HEADER) :
    MOD - HEADER ≤ wrapSub x HEADER := by
  have hH : HEADER = 8 := rfl
  have hM : MOD = 18446744073709551616 := rfl
  unfold wrapSub
  rw [hM, hH]
  omega

/-- What a true `isBlockAddress` answer gives: a non-null address whose
derived header is inside the range and on the stride grid. -/
theorem isBlockAddress_bounds (p : BlockAllocator) (x : Nat)
    (h : isBlockAddress p x = true) :
    x ≠ 0 ∧ p.startHeader ≤ headerOf p x ∧ headerOf p x ≤ p.endHeader ∧
      (headerOf p x - p.startHeader) % p.blockWithHeaderSize = 0 := by
  unfold isBlockAddress at h
  split_ifs at h with hc
  push_neg at hc
  exact ⟨hc.1, hc.2.2, hc.2.1, of_decide_eq_true h⟩

/-- The header derived from any address accepted by `isBlockAddress` is a
genuine block-header address. -/
theorem headerOf_isHeaderAddr (p : BlockAllocator) (hWF : WFlayout p) (x : Nat)
    (h : isBlockAddress p x = true) : isHeaderAddr p (headerOf p x) := by
  obtain ⟨hhs, hbs, hmb, hbwh, hend, hst, hfit⟩ := hWF
  obtain ⟨hx0, hlo, hhi, hmod⟩ := isBlockAddress_bounds p x h
  have hH : HEADER = 8 := rfl
  have hbwhpos : 0 < p.blockWithHeaderSize := by omega
  obtain ⟨m, hm⟩ := Nat.dvd_of_mod_eq_zero hmod
  have h1 : p.blockWithHeaderSize * m ≤ p.blockWithHeaderSize * (p.maxBlocks - 1) := by
    omega
  have h2 : m ≤ p.maxBlocks - 1 := Nat.le_of_mul_le_mul_left h1 hbwhpos
  refine ⟨m, by omega, ?_⟩
  have : m * p.blockWithHeaderSize = p.blockWithHeaderSize * m := Nat.mul_comm m _
  omega

/-- For a real (sub-`2^64`) address accepted by `isBlockAddress`, adding
the header size back to the derived header recovers the address. -/
theorem headerOf_add_cancel (p : BlockAllocator) (hWF : WFlayout p) (x : Nat)
    (hx : x < MOD) (h : isBlockAddress p x = true) :
    headerOf p x + HEADER = x := by
  obtain ⟨hhs, hbs, hmb, hbwh, hend, hst, hfit⟩ := hWF
  obtain ⟨hx0, hlo, hhi, hmod⟩ := isBlockAddress_bounds p x h
  have hH : HEADER = 8 := rfl
  have hM : MOD = 18446744073709551616 := rfl
  have hhdr : headerOf p x = wrapSub x HEADER := by rw [headerOf, hhs]
  by_cases hxh : x < HEADER
  · have hbig := wrapSub_big x hxh
    rw [hhdr] at hlo hhi
    omega
  · push_neg at hxh
    rw [hhdr, wrapSub_eq x hxh hx]
    omega

/-- Every on-grid payload address is accepted by `isBlockAddress`. -/
theorem isBlockAddress_of_stride (p : BlockAllocator) (hWF : WFlayout p) (k : Nat)
    (hk : k < p.maxBlocks) :
    isBlockAddress p (p.startHeader + HEADER + k * p.blockWithHeaderSize) = true := by
  obtain ⟨hhs, hbs, hmb, hbwh, hend, hst, hfit⟩ := hWF
  have hH : HEADER = 8 := rfl
  have hM : MOD = 18446744073709551616 := rfl
  have hkb : k * p.blockWithHeaderSize ≤ (p.maxBlocks - 1) * p.blockWithHeaderSize :=
    mul_le_mul_right' (by omega) _
  have hcm : (p.maxBlocks - 1) * p.blockWithHeaderSize =
      p.blockWithHeaderSize * (p.maxBlocks - 1) := Nat.mul_comm _ _
  have hxlt : p.startHeader + HEADER + k * p.blockWithHeaderSize < MOD := by omega
  have hxge : HEADER ≤ p.startHeader + HEADER + k * p.blockWithHeaderSize := by omega
  have hhdr : headerOf p (p.startHeader + HEADER + k * p.blockWithHeaderSize) =
      p.startHeader + k * p.blockWithHeaderSize := by
    rw [headerOf, hhs, wrapSub_eq _ hxge hxlt]
    omega
  unfold isBlockAddress
  rw [if_neg, hhdr]
  · have hsub : p.startHeader + k * p.blockWithHeaderSize - p.startHeader =
        k * p.blockWithHeaderSize := by omega
    rw [hsub]
    exact decide_eq_true (Nat.mul_mod_left k p.blockWithHeaderSize)
  · rw [hhdr]
    push_neg
    refine ⟨by omega, by omega, by omega⟩

/-- Characterization of `isBlockAddress` on real addresses: accepted
exactly on the stride grid `rangeStart + headerSize + k * stride`,
`k < maxBlocks`. -/
theorem stride_of_isBlockAddress (p : BlockAllocator) (hWF : WFlayout p) (a : Nat)
    (ha : a < MOD) (h : isBlockAddress p a = true) :
    ∃ k, k < p.maxBlocks ∧ a = p.startHeader + HEADER + k * p.blockWithHeaderSize := by
  obtain ⟨k, hk, hkeq⟩ := headerOf_isHeaderAddr p hWF a h
  have hadd := headerOf_add_cancel p hWF a ha h
  exact ⟨k, hk, by omega⟩

/-- The free list read from `hd` by following the stored `next` words: a
finite chain whose nodes are listed in order and whose last node stores
the `NULL` sentinel. -/
inductive FreeChain (mem : Nat → Nat) : Nat → List Nat → Prop
  | nil : FreeChain mem 0 []
  | cons {a : Nat} {l : List Nat} (ha : a ≠ 0) (ht : FreeChain mem (mem a) l) :
      FreeChain mem a (a :: l)

/-- The free-list invariant: the layout is well formed and some finite
duplicate-free chain of header addresses realizes the free list, a header
being on the chain exactly when it does not hold the in-use marker. -/
def Inv (p : BlockAllocator) : Prop :=
  WFlayout p ∧
  ∃ l : List Nat,
    FreeChain p.mem p.headHeader l ∧
    l.Nodup ∧
    (∀ a ∈ l, isHeaderAddr p a) ∧
    (∀ a, isHeaderAddr p a → (a ∈ l ↔ p.mem a ≠ blockInUseFlag))

/-- The pool states reachable by constructing (over a buffer placed
anywhere a real 64-bit system could place it) and then performing any
sequence of `allocate` and `deallocate` calls, successful or failing. -/
inductive Reachable : BlockAllocator → Prop
  | init (bs mb mp mall : Nat) (mem0 : Nat → Nat) (p : BlockAllocator)
      (h : mkBlockAllocator bs mb mp mall mem0 = .ok p)
      (hstart : 1 < p.startHeader)
      (hfit : p.endHeader + p.blockWithHeaderSize ≤ MOD) :
      Reachable p
  | step_allocate (p : BlockAllocator) (h : Reachable p) : Reachable (allocate p).2
  | step_deallocate (p : BlockAllocator) (x : Nat) (h : Reachable p) :
      Reachable (deallocate p x).2

theorem freeChain_wr {mem : Nat → Nat} {hd : Nat} {l : List Nat}
    (h : FreeChain mem hd l) (b v : Nat) (hb : b ∉ l) :
    FreeChain (wr mem b v) hd l := by
  induction h with
  | nil => exact .nil
  | cons ha ht ih =>
    rename_i a l'
    refine .cons ha ?_
    have hba : b ≠ a := by
      intro he
      exact hb (he ▸ List.mem_cons_self a l')
    have hwa : wr mem b v a = mem a := if_neg (fun h => hba h.symm)
    rw [hwa]
    exact ih (fun hm => hb (List.mem_cons_of_mem a hm))

theorem freeChain_cons_inv {mem : Nat → Nat} {hd : Nat} {l : List Nat}
    (h : FreeChain mem hd l) (hne : hd ≠ 0) :
    ∃ l', l = hd :: l' ∧ FreeChain mem (mem hd) l' := by
  cases h with
  | nil => exact absurd rfl hne
  | cons ha ht => exact ⟨_, rfl, ht⟩

theorem freeChain_head_cases {mem : Nat → Nat} {hd : Nat} {l : List Nat}
    (h : FreeChain mem hd l) : hd = 0 ∨ hd ∈ l := by
  cases h with
  | nil => exact Or.inl rfl
  | cons ha ht => exact Or.inr (List.mem_cons_self _ _)

/-- The freshly built memory carries the ascending free chain that starts
at the `n`-th-from-last header. -/
theorem freeChain_build (mem0 : Nat → Nat) (start bwh mb : Nat)
    (hb : 0 < bwh) (hstart : 0 < start) :
    ∀ n, n ≤ mb →
      FreeChain (buildBlocksList mb mem0 start (start + bwh * (mb - 1)) bwh)
        (if n = 0 then 0 else start + (mb - n) * bwh)
        ((List.range n).map fun k => start + (mb - n + k) * bwh) := by
  intro n
  induction n with
  | zero =>
    intro hn
    simp only [List.range_zero, List.map_nil, if_pos rfl]
    exact .nil
  | succ n ih =>
    intro hn
    rw [if_neg (Nat.succ_ne_zero n), List.range_succ_eq_map, List.map_cons, List.map_map]
    have hk : mb - (n + 1) < mb := by omega
    have hpos : 0 < start + (mb - (n + 1)) * bwh :=
      Nat.lt_of_lt_of_le hstart (Nat.le_add_right start _)
    refine .cons (Nat.pos_iff_ne_zero.mp hpos) ?_
    rw [build_mem_header mem0 start bwh mb (mb - (n + 1)) hb hk]
    have htail : (List.range n).map ((fun k => start + (mb - (n + 1) + k) * bwh) ∘ Nat.succ) =
        (List.range n).map fun k => start + (mb - n + k) * bwh := by
      refine List.map_congr_left ?_
      intro k hk2
      simp only [Function.comp_apply, Nat.succ_eq_add_one]
      have h7 : mb - (n + 1) + (k + 1) = mb - n + k := by omega
      rw [h7]
    rw [htail]
    rcases Nat.eq_zero_or_pos n with rfl | hnpos
    · have hcond : ¬ (mb - 1 + 1 < mb) := by omega
      rw [if_neg hcond]
      simp only [List.range_zero, List.map_nil]
      exact .nil
    · have hcond : mb - (n + 1) + 1 < mb := by omega
      rw [if_pos hcond]
      have h8 : mb - (n + 1) + 1 = mb - n := by omega
      rw [h8]
      have h9 := ih (by omega)
      rw [if_neg (by omega : ¬ n = 0)] at h9
      exact h9

/-- A freshly constructed pool satisfies the free-list invariant. -/
theorem inv_finishConstruct (bs mb : Nat) (pt : MemoryPoolType) (start : Nat)
    (mem0 : Nat → Nat) (hbs : 0 < bs) (hmb : 0 < mb) (hstart : 1 < start)
    (hfit : start + (bs + HEADER) * (mb - 1) + (bs + HEADER) ≤ MOD) :
    Inv (finishConstruct bs mb (bs + HEADER) pt start mem0) := by
  have hH : HEADER = 8 := rfl
  have hb : 0 < bs + HEADER := by omega
  refine ⟨⟨rfl, hbs, hmb, rfl, rfl, hstart, hfit⟩,
    (List.range mb).map (fun k => start + k * (bs + HEADER)), ?_, ?_, ?_, ?_⟩
  · have h9 := freeChain_build mem0 start (bs + HEADER) mb hb (by omega) mb le_rfl
    rw [if_neg (by omega : ¬ mb = 0)] at h9
    have hhd : start + (mb - mb) * (bs + HEADER) = start := by
      have h7 : mb - mb = 0 := by omega
      rw [h7]
      ring
    rw [hhd] at h9
    have htail : (List.range mb).map (fun k => start + (mb - mb + k) * (bs + HEADER)) =
        (List.range mb).map fun k => start + k * (bs + HEADER) := by
      refine List.map_congr_left ?_
      intro k hk2
      have h7 : mb - mb + k = k := by omega
      rw [h7]
    rw [htail] at h9
    exact h9
  · exact List.Nodup.map (fun a b hab => addr_inj hb hab) (List.nodup_range mb)
  · intro a ham
    obtain ⟨k, hk, rfl⟩ := List.mem_map.mp ham
    exact ⟨k, List.mem_range.mp hk, rfl⟩
  · intro a hha
    obtain ⟨k, hk, rfl⟩ := hha
    refine iff_of_true (List.mem_map.mpr ⟨k, List.mem_range.mpr hk, rfl⟩) ?_
    show buildBlocksList mb mem0 start (start + (bs + HEADER) * (mb - 1)) (bs + HEADER)
        (start + k * (bs + HEADER)) ≠ blockInUseFlag
    rw [build_mem_header mem0 start (bs + HEADER) mb k hb hk]
    have hflag : blockInUseFlag = 1 := rfl
    split_ifs with hcase
    · have h7 : start ≤ start + (k + 1) * (bs + HEADER) := Nat.le_add_right start _
      omega
    · omega

/-- `allocate` preserves the free-list invariant. -/
theorem inv_allocate (p : BlockAllocator) (h : Inv p) : Inv (allocate p).2 := by
  obtain ⟨hWF, l, hchain, hnd, hhdr, hiff⟩ := h
  by_cases hhd : p.headHeader = 0
  · unfold allocate
    rw [if_pos hhd]
    exact ⟨hWF, l, hchain, hnd, hhdr, hiff⟩
  · unfold allocate
    rw [if_neg hhd]
    obtain ⟨l', rfl, ht⟩ := freeChain_cons_inv hchain hhd
    have hnotl : p.headHeader ∉ l' := (List.nodup_cons.mp hnd).1
    refine ⟨hWF, l', ?_, (List.nodup_cons.mp hnd).2, ?_, ?_⟩
    · show FreeChain (wr p.mem p.headHeader blockInUseFlag) (p.mem p.headHeader) l'
      exact freeChain_wr ht p.headHeader blockInUseFlag hnotl
    · intro a ham
      exact hhdr a (List.mem_cons_of_mem _ ham)
    · intro a hha
      show a ∈ l' ↔ wr p.mem p.headHeader blockInUseFlag a ≠ blockInUseFlag
      by_cases hax : a = p.headHeader
      · subst hax
        refine iff_of_false hnotl ?_
        have hv : wr p.mem p.headHeader blockInUseFlag p.headHeader = blockInUseFlag :=
          if_pos rfl
        rw [hv]
        exact fun hc => hc rfl
      · have hv : wr p.mem p.headHeader blockInUseFlag a = p.mem a := if_neg hax
        rw [hv]
        have hold := hiff a hha
        rw [List.mem_cons] at hold
        constructor
        · intro ham
          exact hold.mp (Or.inr ham)
        · intro hne
          rcases hold.mpr hne with he | ham
          · exact absurd he hax
          · exact ham

/-- `deallocate` preserves the free-list invariant. -/
theorem inv_deallocate (p : BlockAllocator) (x : Nat) (h : Inv p) :
    Inv (deallocate p x).2 := by
  obtain ⟨hWF, l, hchain, hnd, hhdr, hiff⟩ := h
  by_cases hdx : isBlockInUse p x = false
  · unfold deallocate
    rw [if_pos hdx]
    exact ⟨hWF, l, hchain, hnd, hhdr, hiff⟩
  · unfold deallocate
    rw [if_neg hdx]
    have hx : isBlockInUse p x = true := by
      simp only [Bool.not_eq_false] at hdx
      exact hdx
    have hparts : isBlockAddress p x = true ∧ p.mem (headerOf p x) = blockInUseFlag := by
      unfold isBlockInUse at hx
      split_ifs at hx with hA hB
      · simp only [Bool.not_eq_false] at hA
        exact ⟨hA, hB⟩
    obtain ⟨hba, hflag⟩ := hparts
    obtain ⟨k, hk, hkeq⟩ := headerOf_isHeaderAddr p hWF x hba
    have hst : 1 < p.startHeader := hWF.2.2.2.2.2.1
    have hdr_pos : 1 < headerOf p x := by
      have h7 : p.startHeader ≤ headerOf p x := by
        rw [hkeq]
        exact Nat.le_add_right _ _
      omega
    have hnotl : headerOf p x ∉ l := by
      intro hm
      exact (hiff (headerOf p x) ⟨k, hk, hkeq⟩).mp hm hflag
    refine ⟨hWF, headerOf p x :: l, ?_, List.nodup_cons.mpr ⟨hnotl, hnd⟩, ?_, ?_⟩
    · show FreeChain (wr p.mem (headerOf p x) p.headHeader) (headerOf p x)
        (headerOf p x :: l)
      refine FreeChain.cons (by omega) ?_
      have hv : wr p.mem (headerOf p x) p.headHeader (headerOf p x) = p.headHeader :=
        if_pos rfl
      rw [hv]
      exact freeChain_wr hchain (headerOf p x) p.headHeader hnotl
    · intro a ham
      rcases List.mem_cons.mp ham with rfl | ham'
      · exact ⟨k, hk, hkeq⟩
      · exact hhdr a ham'
    · intro a hha
      show a ∈ headerOf p x :: l ↔ wr p.mem (headerOf p x) p.headHeader a ≠ blockInUseFlag
      by_cases hax : a = headerOf p x
      · subst hax
        refine iff_of_true (List.mem_cons_self _ _) ?_
        have hv : wr p.mem (headerOf p x) p.headHeader (headerOf p x) = p.headHeader :=
          if_pos rfl
        rw [hv]
        rcases freeChain_head_cases hchain with h0 | hmem
        · rw [h0]
          have hflag1 : blockInUseFlag = 1 := rfl
          omega
        · obtain ⟨j, hj, hjeq⟩ := hhdr p.headHeader hmem
          have h7 : p.startHeader ≤ p.headHeader := by
            rw [hjeq]
            exact Nat.le_add_right _ _
          have hflag1 : blockInUseFlag = 1 := rfl
          omega
      · have hv : wr p.mem (headerOf p x) p.headHeader a = p.mem a := if_neg hax
        rw [hv, List.mem_cons]
        have hold := hiff a hha
        constructor
        · rintro (he | ham)
          · exact absurd he hax
          · exact hold.mp ham
        · intro hne
          exact Or.inr (hold.mpr hne)

/-- Any successfully constructed pool whose buffer sits above address 1
and fits below the top of the address space satisfies the invariant. -/
theorem inv_of_mk {bs mb mp mall : Nat} {mem0 : Nat → Nat} {p : BlockAllocator}
    (h : mkBlockAllocator bs mb mp mall mem0 = .ok p)
    (hstart : 1 < p.startHeader)
    (hfit : p.endHeader + p.blockWithHeaderSize ≤ MOD) :
    Inv p := by
  obtain ⟨hbs, hmb, hsz, hbase, hp⟩ := mk_ok_elim h
  subst hp
  exact inv_finishConstruct bs mb _ _ mem0 hbs hmb hstart hfit

/-- C7: every pool state reachable from construction by any sequence of
allocate and deallocate calls (successful or failing) satisfies the
free-list invariant — the list read from `freeListHead` is a finite
acyclic chain ending at the sentinel containing each free block exactly
once and no in-use block, every off-chain block being flagged in-use —
and each allocate and each deallocate preserves this invariant. -/
theorem free_list_invariant_reachable :
    (∀ p : BlockAllocator, Reachable p → Inv p) ∧
    (∀ p : BlockAllocator, Inv p → Inv (allocate p).2) ∧
    (∀ (p : BlockAllocator) (x : Nat), Inv p → Inv (deallocate p x).2) := by
  refine ⟨?_, inv_allocate, fun p x h => inv_deallocate p x h⟩
  intro p hr
  induction hr with
  | init bs mb mp mall mem0 p h hstart hfit => exact inv_of_mk h hstart hfit
  | step_allocate p hrec ih => exact inv_allocate p ih
  | step_deallocate p x hrec ih => exact inv_deallocate p x ih

theorem free_list_invariant_reachable_witness : Inv pool0 :=
  free_list_invariant_reachable.1 pool0
    (Reachable.init 2 2 100 0 mem00 pool0 rfl (by decide) (by decide))

/-- C2: deallocate(x) fails with InvalidBlockAddress exactly when x is not
a structurally valid block address or the block's header does not hold
the in-use marker (covering double-free, never-allocated, foreign and
misaligned addresses), and on any failure the resulting state is exactly
the input state: same free-list head, same header words, same metadata. -/
theorem deallocate_invalid_iff_frame (p : BlockAllocator) (x : Nat) :
    ((deallocate p x).1 = .error .InvalidBlockAddress ↔
      ¬ (isBlockAddress p x = true ∧ p.mem (headerOf p x) = blockInUseFlag)) ∧
    (∀ e, (deallocate p x).1 = .error e → (deallocate p x).2 = p) := by
  have hiu : isBlockInUse p x = true ↔
      (isBlockAddress p x = true ∧ p.mem (headerOf p x) = blockInUseFlag) := by
    unfold isBlockInUse
    split_ifs with hA hB
    · simp [hA]
    · simp only [Bool.not_eq_false] at hA
      simp [hA, hB]
    · simp only [Bool.not_eq_false] at hA
      simp [hA, hB]
  constructor
  · unfold deallocate
    split_ifs with hd
    · refine iff_of_true rfl ?_
      intro hc
      rw [hiu.mpr hc] at hd
      exact absurd hd (by simp)
    · refine iff_of_false (by simp) ?_
      intro hc
      simp only [Bool.not_eq_false] at hd
      exact hc (hiu.mp hd)
  · intro e
    unfold deallocate
    split_ifs with hd
    · intro _
      rfl
    · intro he
      exact absurd he (by simp)

theorem deallocate_invalid_iff_frame_witness :
    (deallocate pool0 7).1 = .error .InvalidBlockAddress ∧ (deallocate pool0 7).2 = pool0 :=
  ⟨(deallocate_invalid_iff_frame pool0 7).1.mpr (by decide),
    (deallocate_invalid_iff_frame pool0 7).2 .InvalidBlockAddress
      ((deallocate_invalid_iff_frame pool0 7).1.mpr (by decide))⟩

/-- C3: from any structurally sound pool state, successfully deallocating
a currently in-use block address x and immediately calling allocate
returns exactly x (LIFO stack-discipline reuse: the most recently freed
block is the next one allocated). -/
theorem deallocate_then_allocate_lifo (p : BlockAllocator) (x : Nat)
    (hWF : WFlayout p) (hx : x < MOD) (hin : isBlockInUse p x = true) :
    ∃ q, deallocate p x = (.ok (), q) ∧ (allocate q).1 = .ok x := by
  have hparts : isBlockAddress p x = true ∧ p.mem (headerOf p x) = blockInUseFlag := by
    unfold isBlockInUse at hin
    split_ifs at hin with hA hB
    · simp only [Bool.not_eq_false] at hA
      exact ⟨hA, hB⟩
  obtain ⟨hba, hflag⟩ := hparts
  obtain ⟨k, hk, hkeq⟩ := headerOf_isHeaderAddr p hWF x hba
  have hst : 1 < p.startHeader := hWF.2.2.2.2.2.1
  have hdr_pos : 0 < headerOf p x := by
    have h7 : p.startHeader ≤ headerOf p x := by
      rw [hkeq]
      exact Nat.le_add_right _ _
    omega
  have hadd := headerOf_add_cancel p hWF x hx hba
  have hne : ¬ isBlockInUse p x = false := by
    rw [hin]
    simp
  refine ⟨{ p with
      mem := wr p.mem (headerOf p x) p.headHeader
      headHeader := headerOf p x }, ?_, ?_⟩
  · unfold deallocate
    rw [if_neg hne]
  · have h0 : ({ p with
        mem := wr p.mem (headerOf p x) p.headHeader
        headHeader := headerOf p x } : BlockAllocator).headHeader = headerOf p x := rfl
    unfold allocate
    rw [h0, if_neg (show ¬ headerOf p x = 0 by omega)]
    rw [show headerOf p x + getHeaderSize = x from hadd]

/-- The pool state after allocating blocks A (= 108) and B (= 118). -/
def pool2 : BlockAllocator := (allocate (allocate pool0).2).2

theorem deallocate_then_allocate_lifo_witness :
    ∃ q, deallocate pool2 108 = (.ok (), q) ∧ (allocate q).1 = .ok 108 :=
  deallocate_then_allocate_lifo pool2 108 (by decide) (by decide) (by decide)

/-- C5: over any pool satisfying the invariant, isBlockAddress accepts an
address a < 2^64 exactly when a = rangeStart + headerSize + k * stride for
some k < maxBlocks (so the empty marker, addresses whose derived header
leaves [rangeStart, rangeEnd], and off-stride addresses are rejected), and
in particular it accepts every address a successful allocate() returns. -/
theorem isBlockAddress_iff_stride (p : BlockAllocator) (hInv : Inv p) :
    (∀ a, a < MOD →
      (isBlockAddress p a = true ↔
        ∃ k, k < p.maxBlocks ∧
          a = p.startHeader + p.headerSize + k * p.blockWithHeaderSize)) ∧
    (∀ a q, allocate p = (.ok a, q) → isBlockAddress p a = true) := by
  obtain ⟨hWF, l, hchain, hnd, hhdr, hiff⟩ := hInv
  have hhs : p.headerSize = HEADER := hWF.1
  constructor
  · intro a ha
    rw [hhs]
    constructor
    · exact fun h => stride_of_isBlockAddress p hWF a ha h
    · rintro ⟨k, hk, rfl⟩
      exact isBlockAddress_of_stride p hWF k hk
  · intro a q hq
    unfold allocate at hq
    split_ifs at hq with hhd
    · exact absurd hq (by simp)
    · have ha : a = p.headHeader + getHeaderSize := by
        have h8 := congrArg Prod.fst hq
        simp only [Except.ok.injEq] at h8
        exact h8.symm
      subst ha
      obtain ⟨l', rfl, ht⟩ := freeChain_cons_inv hchain hhd
      obtain ⟨k, hk, hkeq⟩ := hhdr p.headHeader (List.mem_cons_self _ _)
      rw [hkeq]
      have hsg : p.startHeader + k * p.blockWithHeaderSize + getHeaderSize =
          p.startHeader + HEADER + k * p.blockWithHeaderSize := by
        show p.startHeader + k * p.blockWithHeaderSize + HEADER =
          p.startHeader + HEADER + k * p.blockWithHeaderSize
        ring
      rw [hsg]
      exact isBlockAddress_of_stride p hWF k hk

theorem isBlockAddress_iff_stride_witness :
    isBlockAddress pool0 108 = true ↔
      ∃ k, k < pool0.maxBlocks ∧
        108 = pool0.startHeader + pool0.headerSize + k * pool0.blockWithHeaderSize :=
  (isBlockAddress_iff_stride pool0
    (inv_of_mk (show mkBlockAllocator 2 2 100 0 mem00 = .ok pool0 from rfl)
      (by decide) (by decide))).1 108 (by decide)

end BlockAlloc
